import Mathlib

/-!
Verification of the RKH reactive-systems framework core against its
specification.  The definitions below are shallow embeddings of the C
sources: `rkhfwk_evtpool.c` (event pool manager), `rkhtrc.c` (trace
stream, encoder and runtime filters) and, where the corresponding C file
is absent from the tree, models written from the specification (each such
definition is marked in its doc comment).

Machine integers are modelled as `Nat` with explicit `% 256` (or masking)
where 8-bit overflow matters; C null pointers become `Option`; the
`RKH_REQUIRE` precondition hook is made explicit as a Boolean "assertion
fired" flag.
-/

namespace RKH

/-! ## Event pool manager — `rkhfwk_evtpool.c` -/

/-- `RKH_MP_T`, the native memory pool embedded in an event pool.  Only the
fields read or written by the functions under study are kept: `bsize`
(block size, set by `rkh_mp_init`) and `nfree` (current number of free
blocks). -/
structure RKH_MP_T where
  bsize : Nat
  nfree : Nat
deriving Repr, DecidableEq

/-- `struct RKHEvtPool`: a native memory pool plus the `isUsed` registry
flag (`rui8_t`, 0 = slot free, nonzero = slot taken). -/
structure RKHEvtPool where
  memPool : RKH_MP_T
  isUsed : Nat
deriving Repr, DecidableEq

/-- Modelled from the spec: `rkh_mp_init` (file `rkhmp.c`, absent from the
tree) initialises a fixed-size-block pool over a byte region of `stoSize`
bytes with blocks of `bsize` bytes; the pool records its block size and
starts with all `stoSize / bsize` blocks free. -/
def rkh_mp_init (stoSize bsize : Nat) : RKH_MP_T :=
  { bsize := bsize, nfree := stoSize / bsize }

/-- Modelled from the spec: `rkh_mp_get` (file `rkhmp.c`, absent from the
tree) returns a block from the pool when one is free (`true`) and the null
pointer otherwise (`false`). -/
def rkh_mp_get (mp : RKH_MP_T) : Bool × RKH_MP_T :=
  if mp.nfree = 0 then (false, mp)
  else (true, { mp with nfree := mp.nfree - 1 })

/-- Modelled from the spec: `rkh_mp_put` (file `rkhmp.c`, absent from the
tree) returns a block to the pool's free list. -/
def rkh_mp_put (mp : RKH_MP_T) : RKH_MP_T :=
  { mp with nfree := mp.nfree + 1 }

/-- `rkh_evtPool_init`: clears the `isUsed` flag of every slot of the
static registry `evtPools[RKH_CFG_FWK_MAX_EVT_POOL]`. -/
def rkh_evtPool_init (pools : List RKHEvtPool) : List RKHEvtPool :=
  pools.map (fun ep => { ep with isUsed := 0 })

/-- `rkh_evtPool_getPool`: scans the registry for the first slot with
`isUsed == 0`, initialises its memory pool via `rkh_mp_init` with the
requested storage size and event size, marks it used and returns it.
Returns the null pool (`none`) when every slot is used.  The returned
pool is identified by its index in the registry (the C code returns the
address of the slot). -/
def regPool (stoSize evtSize : Nat) : RKHEvtPool :=
  { memPool := rkh_mp_init stoSize evtSize, isUsed := 1 }

def rkh_evtPool_getPool :
    List RKHEvtPool → Nat → Nat → Option Nat × List RKHEvtPool
  | [], _, _ => (none, [])
  | ep :: rest, stoSize, evtSize =>
    if ep.isUsed = 0 then
      (some 0, regPool stoSize evtSize :: rest)
    else
      let r := rkh_evtPool_getPool rest stoSize evtSize
      (r.1.map (· + 1), ep :: r.2)

/-- Result of calling an accessor guarded by the `RKH_REQUIRE` discipline:
whether the `rkh_assert` precondition hook was invoked, and the value the
call produced. -/
structure Checked (α : Type) where
  asserted : Bool
  value : α
deriving Repr, DecidableEq

/-- `rkh_evtPool_getBlockSize`: `RKH_REQUIRE(me != NULL)`, then returns the
pool's block size. -/
def rkh_evtPool_getBlockSize (me : Option RKHEvtPool) : Checked Nat :=
  match me with
  | none => ⟨true, 0⟩
  | some ep => ⟨false, ep.memPool.bsize⟩

/-- `rkh_evtPool_get`: `RKH_REQUIRE(me != NULL)`, then takes a block from
the underlying memory pool (`true` in the value when a block was
returned). -/
def rkh_evtPool_get (me : Option RKHEvtPool) : Checked (Bool × RKH_MP_T) :=
  match me with
  | none => ⟨true, (false, ⟨0, 0⟩)⟩
  | some ep => ⟨false, rkh_mp_get ep.memPool⟩

/-- `rkh_evtPool_put`: `RKH_REQUIRE(me != NULL)`, then returns a block to
the underlying memory pool. -/
def rkh_evtPool_put (me : Option RKHEvtPool) : Checked RKH_MP_T :=
  match me with
  | none => ⟨true, ⟨0, 0⟩⟩
  | some ep => ⟨false, rkh_mp_put ep.memPool⟩

/-- `rkh_evtPool_getNumUsed`: the C body is `return 0;` — no
`RKH_REQUIRE`, no field access. -/
def rkh_evtPool_getNumUsed (_me : Option RKHEvtPool) : Checked Nat :=
  ⟨false, 0⟩

/-- `rkh_evtPool_getNumMin`: the C body is `return 0;` — no
`RKH_REQUIRE`, no field access. -/
def rkh_evtPool_getNumMin (_me : Option RKHEvtPool) : Checked Nat :=
  ⟨false, 0⟩

/-- `rkh_evtPool_getNumBlock`: the C body is `return 0;` — no
`RKH_REQUIRE`, no field access. -/
def rkh_evtPool_getNumBlock (_me : Option RKHEvtPool) : Checked Nat :=
  ⟨false, 0⟩

/-- Runs a sequence of `rkh_evtPool_getPool` calls (each a pair of storage
size and event size) against a registry, collecting the returned pool
identities. -/
def regSeq : List (Nat × Nat) → List RKHEvtPool →
    List (Option Nat) × List RKHEvtPool
  | [], pools => ([], pools)
  | c :: rest, pools =>
    let r := rkh_evtPool_getPool pools c.1 c.2
    let rs := regSeq rest r.2
    (r.1 :: rs.1, rs.2)

/-- The block sizes of the registered (used) pools, in registry order. -/
def usedBlockSizes (pools : List RKHEvtPool) : List Nat :=
  (pools.filter (fun ep => ep.isUsed ≠ 0)).map (fun ep => ep.memPool.bsize)

/-- Modelled from the spec: `rkh_fwk_ae` (file `rkhfwk_dynevt.c`, absent
from the tree) allocates an event of `esize` bytes: it scans the
registered pools in order, stopping at the first pool whose block size is
at least `esize`, and takes a block from that pool alone — when that pool
has no free block the allocation fails (`none`, the OUT_OF_MEMORY case)
without consulting any later pool.  Returns the index of the pool used
and the updated pool list. -/
def rkh_fwk_ae : List RKH_MP_T → Nat → Option (Nat × List RKH_MP_T)
  | [], _ => none
  | mp :: rest, esize =>
    if esize ≤ mp.bsize then
      match rkh_mp_get mp with
      | (true, mp') => some (0, mp' :: rest)
      | (false, _) => none
    else
      (rkh_fwk_ae rest esize).map (fun r => (r.1 + 1, mp :: r.2))

/-- A fresh (never used) registry slot, as left by `rkh_evtPool_init`
acting on the zero-initialised static array. -/
def freshPool : RKHEvtPool := ⟨⟨0, 0⟩, 0⟩

/-! ## Trace facility — `rkhtrc.c` / `rkhtrc.h`

Constants from `rkhtrc.h`: the frame delimiter, escape and stuffing
bytes, the filter control values (`enum { FILTER_ON, FILTER_OFF }`), the
group/event split of a trace event id, and the group-to-event-table map
`trcgmtbl` built from the `RKH_*_TTBL_OFFSET` / `RKH_*_TTBL_RANGE`
constants (MP 0/1, RQ 1/1, SMA 2/1, SM 3/3, TIM 6/1, FWK 7/3,
USR 10/4). -/

def RKH_XOR : Nat := 0x20
def RKH_FLG : Nat := 0x7E
def RKH_ESC : Nat := 0x7D
def FILTER_ON : Nat := 0
def FILTER_OFF : Nat := 1
def ECHANGE : Nat := 0
def EUNCHANGE : Nat := 1
def RKH_TRC_ALL_GROUPS : Nat := 7
def RKH_TRC_ALL_EVENTS : Nat := 255
def RKH_TRC_MAX_EVENTS_IN_BYTES : Nat := 14

/-- Modelled from the spec: `rkh_maptbl` (defined in the ready-list module
`rkhtbl.c`, absent from the tree) is the bit-mask table documented in
`rkhtrc.c`: entry `x` carries bit `x`, so that `tbl[i >> 3] & maptbl[i & 7]`
tests the bit of slot `i`. -/
def rkh_maptbl (i : Nat) : Nat := [1, 2, 4, 8, 16, 32, 64, 128].getD i 0

/-- `trcgmtbl`: `(offset << 4) | range` per trace group. -/
def trcgmtbl : List Nat := [0x01, 0x11, 0x21, 0x33, 0x61, 0x73, 0xA4]

/-- `GETGRP`: the three top bits of a trace event id. -/
def GETGRP (e : Nat) : Nat := (e &&& 0xE0) >>> 5

/-- `GETEVT`: the five low bits of a trace event id. -/
def GETEVT (e : Nat) : Nat := e &&& 0x1F

/-- The runtime-filter state of `rkhtrc.c`: the group filter byte
`trcgfilter` and the per-event filter table `trceftbl` (one bit per trace
event, `RKH_TRC_MAX_EVENTS_IN_BYTES` bytes). -/
structure TrcFilters where
  trcgfilter : Nat
  trceftbl : List Nat
deriving Repr, DecidableEq

/-- The byte index of trace event `e` inside `trceftbl`:
`(trcgmtbl[grp] >> 4) + (evt >> 3)`. -/
def trcEvtIndex (e : Nat) : Nat :=
  (trcgmtbl.getD (GETGRP e) 0 >>> 4) + (GETEVT e >>> 3)

/-- The group-filter bit of event `e`: `trcgfilter & rkh_maptbl[grp]`
is nonzero. -/
def groupBitEnabled (f : TrcFilters) (e : Nat) : Bool :=
  decide (f.trcgfilter &&& rkh_maptbl (GETGRP e) ≠ 0)

/-- The per-event filter bit of event `e`:
`trceftbl[trcEvtIndex e] & rkh_maptbl[evt & 7]` is nonzero. -/
def eventBitEnabled (f : TrcFilters) (e : Nat) : Bool :=
  decide (f.trceftbl.getD (trcEvtIndex e) 0 &&& rkh_maptbl (GETEVT e &&& 0x7) ≠ 0)

/-- `rkh_trc_isoff_`: the trace point of event id `e` is enabled iff both
its group bit and its event bit are set. -/
def rkh_trc_isoff_ (f : TrcFilters) (e : Nat) : Bool :=
  groupBitEnabled f e && eventBitEnabled f e

/-- The effect of the C byte-fill loop
`for (p = &tbl[offset], ix = 0; ix < range; ++ix, ++p) *p = c;`:
positions `offset ≤ i < offset + range` hold `c`, the rest are
unchanged. -/
def fillBytes (tbl : List Nat) (offset range c : Nat) : List Nat :=
  (List.range tbl.length).map
    (fun i => if offset ≤ i ∧ i < offset + range then c else tbl.getD i 0)

/-- Read-modify-write of one byte of a filter table. -/
def setByte (tbl : List Nat) (i : Nat) (f : Nat → Nat) : List Nat :=
  tbl.set i (f (tbl.getD i 0))

/-- `rkh_trc_filter_group_` (ctrl, grp, mode): sets (`FILTER_OFF`) or
clears (`FILTER_ON`) the group bit — all of `trcgfilter` for
`RKH_TRC_ALL_GROUPS` — and with `mode == ECHANGE` also fills the group's
range of `trceftbl` with all-ones resp. all-zeros.  The C `~mask`
truncated to `rui8_t` is `0xFF ^^^ mask`. -/
def rkh_trc_filter_group_ (ctrl grp mode : Nat) (f : TrcFilters) : TrcFilters :=
  if grp = RKH_TRC_ALL_GROUPS then
    { f with trcgfilter := if ctrl = FILTER_OFF then 0xFF else 0 }
  else
    { trcgfilter :=
        if ctrl = FILTER_OFF then f.trcgfilter ||| rkh_maptbl grp
        else f.trcgfilter &&& (0xFF ^^^ rkh_maptbl grp),
      trceftbl :=
        (if mode = ECHANGE then
          fillBytes f.trceftbl (trcgmtbl.getD grp 0 >>> 4)
            (trcgmtbl.getD grp 0 &&& 0x0F)
            (if ctrl = FILTER_OFF then 0xFF else 0)
        else f.trceftbl) }

/-- `rkh_trc_filter_event_` (ctrl, evt): for `RKH_TRC_ALL_EVENTS` fills the
whole event table and group byte; otherwise sets (`FILTER_OFF`) the
event's bit *and* its group bit, or clears (`FILTER_ON`) the event's bit
alone. -/
def rkh_trc_filter_event_ (ctrl evt : Nat) (f : TrcFilters) : TrcFilters :=
  if evt = RKH_TRC_ALL_EVENTS then
    { trcgfilter := if ctrl = FILTER_OFF then 0xFF else 0,
      trceftbl := (fillBytes f.trceftbl 0 RKH_TRC_MAX_EVENTS_IN_BYTES
        (if ctrl = FILTER_OFF then 0xFF else 0)) }
  else
    if ctrl = FILTER_OFF then
      { trcgfilter := f.trcgfilter ||| rkh_maptbl (GETGRP evt),
        trceftbl := (setByte f.trceftbl (trcEvtIndex evt)
          (· ||| rkh_maptbl (GETEVT evt &&& 0x7))) }
    else
      { f with trceftbl := (setByte f.trceftbl (trcEvtIndex evt)
          (· &&& (0xFF ^^^ rkh_maptbl (GETEVT evt &&& 0x7)))) }

/-- `FIL_T`: a generic filter table (AO-priority or signal filter) with its
size in bytes. -/
structure FIL_T where
  size : Nat
  tbl : List Nat
deriving Repr, DecidableEq

/-- Modelled from the spec: `RKH_TRC_ALL_FILTERS` (defined in the newer
`rkhtrc.h`, absent from the tree) is the flag bit, disjoint from the
`FILTER_ON`/`FILTER_OFF` values, that selects the whole-table branch of
`rkh_trc_simfil`. -/
def RKH_TRC_ALL_FILTERS : Nat := 0x80

/-- Modelled from the spec: `RKH_FILTER_MODE_MASK` masks away
`RKH_TRC_ALL_FILTERS`, leaving the on/off control. -/
def RKH_FILTER_MODE_MASK : Nat := 0x7F

/-- `rkh_trc_simfil_isoff`: tests bit `slot & 7` of byte `slot >> 3` of the
filter table. -/
def rkh_trc_simfil_isoff (filter : FIL_T) (slot : Nat) : Bool :=
  decide (filter.tbl.getD (slot >>> 3) 0 &&& rkh_maptbl (slot &&& 0x07) ≠ 0)

/-- `rkh_trc_simfil` (filter, slot, mode): with the `RKH_TRC_ALL_FILTERS`
bit set, fills the first `size` bytes of the table; otherwise sets
(`FILTER_OFF`) or clears (`FILTER_ON`) the single bit of `slot`. -/
def rkh_trc_simfil (filter : FIL_T) (slot mode : Nat) : FIL_T :=
  let onoff := mode &&& RKH_FILTER_MODE_MASK
  if mode &&& RKH_TRC_ALL_FILTERS ≠ 0 then
    { filter with tbl := (fillBytes filter.tbl 0 filter.size
        (if onoff = FILTER_OFF then 0xFF else 0)) }
  else
    if onoff = FILTER_OFF then
      { filter with tbl := (setByte filter.tbl (slot >>> 3)
          (· ||| rkh_maptbl (slot &&& 0x07))) }
    else
      { filter with tbl := (setByte filter.tbl (slot >>> 3)
          (· &&& (0xFF ^^^ rkh_maptbl (slot &&& 0x07)))) }

/-- `rkh_trc_sma_isoff_` (first revision of `rkhtrc.c`): an AO of priority
`RKH_MAX_SMA` passes the filter check unconditionally (`return 1`);
otherwise the check passes iff the priority's bit in `trcsmaftbl` is
clear. -/
def rkh_trc_sma_isoff_ (maxSMA : Nat) (trcsmaftbl : List Nat) (prio : Nat) : Bool :=
  if prio = maxSMA then true
  else decide (trcsmaftbl.getD (prio >>> 3) 0 &&& rkh_maptbl (prio &&& 0x07) = 0)

/-! ### Trace stream (ring buffer) -/

/-- The trace-stream state of `rkhtrc.c`: the byte buffer `trcstm` of
`RKH_TRC_SIZEOF_STREAM` bytes (`size`), the write index `trcin`, the read
index `trcout`, the stored count `trcqty` and the running checksum `chk`.
The C pointers `trcin` / `trcout` are represented by their offsets into
`trcstm`; `trcend` is offset `size`. -/
structure TrcStream where
  size : Nat
  buf : List Nat
  tin : Nat
  tout : Nat
  qty : Nat
  chk : Nat
deriving Repr, DecidableEq

/-- `rkh_trc_put`: stores `b` at `trcin`, advances and wraps `trcin`,
increments `trcqty`; when the count reaches the stream size it is clamped
there and `trcout` is dragged to `trcin`, discarding the oldest byte. -/
def rkh_trc_put (b : Nat) (s : TrcStream) : TrcStream :=
  let nbuf := s.buf.set s.tin b
  let tin1 := s.tin + 1
  let tin2 := if tin1 = s.size then 0 else tin1
  if s.size ≤ s.qty + 1 then
    { s with buf := nbuf, tin := tin2, qty := s.size, tout := tin2 }
  else
    { s with buf := nbuf, tin := tin2, qty := s.qty + 1 }

/-- `rkh_trc_get`: returns the null pointer when the stream is empty;
otherwise returns the byte at `trcout`, decrements the count, advances and
wraps `trcout`. -/
def rkh_trc_get (s : TrcStream) : Option Nat × TrcStream :=
  if s.qty = 0 then (none, s)
  else
    let v := s.buf.getD s.tout 0
    let tout1 := s.tout + 1
    let tout2 := if s.size ≤ tout1 then 0 else tout1
    (some v, { s with tout := tout2, qty := s.qty - 1 })

/-- `rkh_trc_init` acting on the static (zero-initialised) stream of
`size` bytes: resets the indices and count, then stores the flag byte raw
(`RKH_TRC_U8_RAW(RKH_FLG)` is a single `rkh_trc_put`). -/
def rkh_trc_init (size : Nat) : TrcStream :=
  rkh_trc_put RKH_FLG
    { size := size, buf := List.replicate size 0, tin := 0, tout := 0,
      qty := 0, chk := 0 }

/-- `rkh_trc_u8`: adds the unescaped `d` to the running checksum (mod 256,
the `rkhui8_t` cast) and inserts `d` byte-stuffed: the flag and escape
bytes go out as `RKH_ESC` followed by `d ^ RKH_XOR`; any other byte goes
out as itself. -/
def rkh_trc_u8 (d : Nat) (s : TrcStream) : TrcStream :=
  let s1 : TrcStream := { s with chk := (s.chk + d) % 256 }
  if d = RKH_FLG ∨ d = RKH_ESC then
    rkh_trc_put (d ^^^ RKH_XOR) (rkh_trc_put RKH_ESC s1)
  else
    rkh_trc_put d s1

/-- One step of an interleaving of producers and the consumer. -/
inductive TrcOp where
  | put (b : Nat)
  | get
deriving Repr, DecidableEq

def applyTrcOp (s : TrcStream) : TrcOp → TrcStream
  | .put b => rkh_trc_put b s
  | .get => (rkh_trc_get s).2

def applyTrcOps (s : TrcStream) : List TrcOp → TrcStream
  | [] => s
  | op :: rest => applyTrcOps (applyTrcOp s op) rest

/-- The abstract content of the stream: the `qty` unconsumed bytes, oldest
first, starting at `trcout` and wrapping. -/
def trcContents (s : TrcStream) : List Nat :=
  (List.range s.qty).map (fun i => s.buf.getD ((s.tout + i) % s.size) 0)

/-- Well-formedness of the ring state. -/
def TrcInv (s : TrcStream) : Prop :=
  s.buf.length = s.size ∧ 1 ≤ s.size ∧ s.tin < s.size ∧ s.tout < s.size ∧
  s.qty ≤ s.size ∧ s.tin = (s.tout + s.qty) % s.size

/-! ### HSM dispatch engine

The dispatch engine (`rkhsm.c` / `rkh.c`) is absent from the tree; the
definitions of this section are modelled from the specification's §4.5
algorithm, and each doc comment names the step it renders. -/

/-- Modelled from the spec: the outcomes of the dispatch procedure
(§4.5). -/
inductive HsmOutcome where
  | INITIALIZED
  | PROCESSED
  | NOT_FOUND
  | GUARD_FALSE
  | CND_NOT_FOUND
  | UNKNOWN_STATE
  | EX_HLEVEL
  | EX_TSEG
deriving Repr, DecidableEq

/-- Modelled from the spec: a transition-table entry — trigger signal,
optional guard over the event signal, the internal-transition marker and
the target state id. -/
structure HsmTrn where
  trigger : Nat
  guard : Option (Nat → Bool)
  internal : Bool
  target : Nat

/-- Modelled from the spec: the variants of a state descriptor (§3). -/
inductive HsmKind where
  | basic
  | composite (defaultSub : Nat)
  | choice (branches : List ((Nat → Bool) × Nat)) (defaultBr : Option Nat)
  | junction (target : Nat)
  | shallowHistory
  | deepHistory
  | final

/-- Modelled from the spec: a state descriptor — parent pointer (`none`
at the root), kind and transition table. -/
structure HsmState where
  parent : Option Nat
  kind : HsmKind
  ttable : List HsmTrn

/-- Modelled from the spec: a state machine — descriptor table (state ids
are indices), top-level default target, and the configured maximum
nesting depth and pseudostate segment limit. -/
structure HsmMachine where
  states : List HsmState
  initialTarget : Nat
  maxDepth : Nat
  maxSeg : Nat

def HsmMachine.desc (m : HsmMachine) (s : Nat) : Option HsmState :=
  m.states[s]?

/-- Modelled from the spec: the HSM-relevant mutable part of an AO — the
current-state id and the history store (one slot per history pseudostate,
keyed by the pseudostate's id). -/
structure HsmAO where
  current : Nat
  hist : List (Nat × Nat)
deriving Repr, DecidableEq

def histLookup (h : List (Nat × Nat)) (k : Nat) : Option Nat :=
  (h.find? (fun p => p.1 == k)).map Prod.snd

def histStore (h : List (Nat × Nat)) (k v : Nat) : List (Nat × Nat) :=
  (k, v) :: h.filter (fun p => p.1 != k)

/-- A missing guard is vacuously true (§4.5 step 1: "whose guard (if any)
evaluates true"). -/
def evalGuard (g : Option (Nat → Bool)) (sig : Nat) : Bool :=
  match g with
  | none => true
  | some f => f sig

/-- Modelled from the spec, §4.5 step 8: initial descent — while the main
target is composite, follow its default substate down to a leaf (basic or
final state).  Fuel renders the configured nesting bound (`EX_HLEVEL` on
exhaustion); a pseudostate as a default substate is a model error
(`UNKNOWN_STATE`). -/
def hsmDescend (m : HsmMachine) : Nat → Nat → Except HsmOutcome Nat
  | 0, _ => .error .EX_HLEVEL
  | fuel + 1, s =>
    match m.desc s with
    | none => .error .UNKNOWN_STATE
    | some d =>
      match d.kind with
      | .basic => .ok s
      | .final => .ok s
      | .composite sub => hsmDescend m fuel sub
      | _ => .error .UNKNOWN_STATE

/-- Modelled from the spec, §4.5 step 3: resolve the transition's target
through successive pseudostate segments to the main target.  Choices take
the first branch whose guard is true, else the default branch, else the
outcome is `CND_NOT_FOUND`; junctions follow unconditionally; shallow and
deep history target the stored state when present and otherwise the
parent composite's default substate; the segment limit is rendered by
fuel (`EX_TSEG`). -/
def hsmResolve (m : HsmMachine) (ao : HsmAO) (sig : Nat) :
    Nat → Nat → Except HsmOutcome Nat
  | 0, _ => .error .EX_TSEG
  | fuel + 1, t =>
    match m.desc t with
    | none => .error .UNKNOWN_STATE
    | some d =>
      match d.kind with
      | .basic => .ok t
      | .final => .ok t
      | .composite _ => .ok t
      | .junction tgt => hsmResolve m ao sig fuel tgt
      | .choice brs dflt =>
        (match brs.find? (fun br => br.1 sig) with
         | some br => hsmResolve m ao sig fuel br.2
         | none =>
           match dflt with
           | some tgt => hsmResolve m ao sig fuel tgt
           | none => .error .CND_NOT_FOUND)
      | .shallowHistory =>
        (match histLookup ao.hist t with
         | some stored => hsmResolve m ao sig fuel stored
         | none =>
           match d.parent with
           | none => .error .UNKNOWN_STATE
           | some p =>
             match m.desc p with
             | some pd =>
               (match pd.kind with
                | .composite sub => hsmResolve m ao sig fuel sub
                | _ => .error .UNKNOWN_STATE)
             | none => .error .UNKNOWN_STATE)
      | .deepHistory =>
        (match histLookup ao.hist t with
         | some stored => hsmResolve m ao sig fuel stored
         | none =>
           match d.parent with
           | none => .error .UNKNOWN_STATE
           | some p =>
             match m.desc p with
             | some pd =>
               (match pd.kind with
                | .composite sub => hsmResolve m ao sig fuel sub
                | _ => .error .UNKNOWN_STATE)
             | none => .error .UNKNOWN_STATE)

/-- Modelled from the spec, §4.5 step 1: trigger search up the parent
chain — at each level the first table entry whose trigger matches the
signal and whose guard evaluates true is selected (innermost state wins);
a matching trigger with a false guard is treated as unmatched and
remembered, yielding the `GUARD_FALSE` outcome when nothing matches. -/
def hsmFindTrn (m : HsmMachine) (sig : Nat) :
    Nat → Nat → Bool → Option (Nat × HsmTrn) × Bool
  | 0, _, saw => (none, saw)
  | fuel + 1, s, saw =>
    match m.desc s with
    | none => (none, saw)
    | some d =>
      let saw2 := saw ||
        d.ttable.any (fun t => t.trigger == sig && !(evalGuard t.guard sig))
      match d.ttable.find?
          (fun t => t.trigger == sig && evalGuard t.guard sig) with
      | some t => (some (s, t), saw2)
      | none =>
        (match d.parent with
         | none => (none, saw2)
         | some p => hsmFindTrn m sig fuel p saw2)

/-- Modelled from the spec: the chain from a state up to the root, the
state itself first, bounded by fuel. -/
def hsmAncestors (m : HsmMachine) : Nat → Nat → List Nat
  | 0, _ => []
  | fuel + 1, s =>
    match m.desc s with
    | none => []
    | some d =>
      s :: (match d.parent with
            | none => []
            | some p => hsmAncestors m fuel p)

/-- Modelled from the spec, §4.5 step 4: the least common ancestor of the
source and the main target — the first state on the source's chain that
also lies on the target's chain. -/
def hsmLca (m : HsmMachine) (fuel src tgt : Nat) : Option Nat :=
  (hsmAncestors m fuel src).find?
    (fun a => (hsmAncestors m fuel tgt).contains a)

/-- Modelled from the spec, §4.5 step 4: the exit chain — the path from
the current state up to, but not including, the LCA (innermost first). -/
def hsmExitChain (m : HsmMachine) (fuel cur : Nat) (lca : Option Nat) :
    List Nat :=
  match lca with
  | none => hsmAncestors m fuel cur
  | some l => (hsmAncestors m fuel cur).takeWhile (fun a => a != l)

/-- Modelled from the spec, §4.5 steps 4 and 7: the entry chain — the
path from the LCA down to the main target, not including the LCA, in
root-to-leaf order. -/
def hsmEntryChain (m : HsmMachine) (fuel tgt : Nat) (lca : Option Nat) :
    List Nat :=
  (match lca with
   | none => hsmAncestors m fuel tgt
   | some l => (hsmAncestors m fuel tgt).takeWhile (fun a => a != l)).reverse

/-- Modelled from the spec, §4.5 step 5: during exit, the shallow-history
slot of every exited composite records the direct substate on the exit
path, and the deep-history slot records the exited innermost leaf (the
pre-transition current state). -/
def hsmUpdateHist (m : HsmMachine) (cur : Nat) (hist : List (Nat × Nat))
    (exits : List Nat) : List (Nat × Nat) :=
  (List.range m.states.length).foldl
    (fun acc hid =>
      match m.desc hid with
      | some d =>
        (match d.kind, d.parent with
         | .shallowHistory, some p =>
           (match exits.findIdx? (fun a => a == p) with
            | some (i + 1) => histStore acc hid (exits.getD i 0)
            | _ => acc)
         | .deepHistory, some p =>
           (if exits.contains p then histStore acc hid cur else acc)
         | _, _ => acc)
      | none => acc)
    hist

/-- Modelled from the spec, §4.5: one run-to-completion step.  Trigger
search (step 1); internal transitions run their action only (step 2);
otherwise the target is resolved through pseudostates (step 3), the exit
and entry chains are computed from the LCA (step 4) and checked against
the nesting bound (step 9), histories are recorded on exit (step 5), the
initial descent runs to a leaf (step 8) and the new current state is
committed (step 10).  On `NOT_FOUND` / `GUARD_FALSE` and on the error
outcomes the current state is left unchanged (§7 leaves it
"indeterminate but non-crashing" for the error outcomes; the model takes
the unchanged state as that witness). -/
def hsmDispatch (m : HsmMachine) (ao : HsmAO) (sig : Nat) :
    HsmOutcome × HsmAO :=
  match hsmFindTrn m sig (m.maxDepth + 1) ao.current false with
  | (none, true) => (.GUARD_FALSE, ao)
  | (none, false) => (.NOT_FOUND, ao)
  | (some (src, trn), _) =>
    if trn.internal then (.PROCESSED, ao)
    else
      match hsmResolve m ao sig (m.maxSeg + 1) trn.target with
      | .error o => (o, ao)
      | .ok mainTgt =>
        let lca := hsmLca m (m.maxDepth + 1) src mainTgt
        let exits := hsmExitChain m (m.maxDepth + 1) ao.current lca
        let entries := hsmEntryChain m (m.maxDepth + 1) mainTgt lca
        if m.maxDepth < exits.length ∨ m.maxDepth < entries.length then
          (.EX_HLEVEL, ao)
        else
          match hsmDescend m (m.maxDepth + 1) mainTgt with
          | .error o => (o, ao)
          | .ok leaf =>
            (.PROCESSED,
              { current := leaf,
                hist := hsmUpdateHist m ao.current ao.hist exits })

/-- Modelled from the spec, §4.5 "Initial transition on startup": run the
top-level initial transition, then enter the default state chain exactly
as step 8. -/
def hsmInit (m : HsmMachine) : Except HsmOutcome HsmAO :=
  (hsmDescend m (m.maxDepth + 1) m.initialTarget).map
    (fun s => { current := s, hist := [] })

/-- The claim's predicate on the current state: it designates a state
that is neither a pseudostate nor a composite (`basic` or `final`
descriptor — a final state has no substates and is not a
pseudostate). -/
def hsmIsBasic (m : HsmMachine) (s : Nat) : Bool :=
  match m.desc s with
  | some d =>
    (match d.kind with
     | .basic => true
     | .final => true
     | _ => false)
  | none => false

/-- A run of the framework restricted to one AO: dispatch the given event
signals in order. -/
def hsmRun (m : HsmMachine) (ao : HsmAO) : List Nat → HsmAO
  | [] => ao
  | sig :: rest => hsmRun m (hsmDispatch m ao sig).2 rest

/-- A concrete three-state machine: a root composite whose default
substate is a basic state with one outgoing transition to a sibling basic
state. -/
def demoMachine : HsmMachine :=
  { states :=
      [ { parent := none, kind := .composite 1, ttable := [] },
        { parent := some 0, kind := .basic,
          ttable := [{ trigger := 1, guard := none, internal := false,
                       target := 2 }] },
        { parent := some 0, kind := .basic, ttable := [] } ],
    initialTarget := 0, maxDepth := 4, maxSeg := 4 }

/-! ### Event pool lemmas -/

theorem getPool_allUsed (pools : List RKHEvtPool) (ss es : Nat)
    (h : ∀ ep ∈ pools, ep.isUsed ≠ 0) :
    rkh_evtPool_getPool pools ss es = (none, pools) := by
  induction pools with
  | nil => rfl
  | cons ep rest ih =>
    have hep : ep.isUsed ≠ 0 := h ep (List.mem_cons_self ep rest)
    have hrest : ∀ e ∈ rest, e.isUsed ≠ 0 := fun e he => h e (List.mem_cons_of_mem ep he)
    simp [rkh_evtPool_getPool, hep, ih hrest]

theorem getPool_prefix_used (a b : List RKHEvtPool) (ss es : Nat)
    (ha : ∀ ep ∈ a, ep.isUsed ≠ 0) :
    rkh_evtPool_getPool (a ++ b) ss es =
      ((rkh_evtPool_getPool b ss es).1.map (· + a.length),
        a ++ (rkh_evtPool_getPool b ss es).2) := by
  induction a with
  | nil => simp
  | cons ep rest ih =>
    have hep : ep.isUsed ≠ 0 := ha ep (List.mem_cons_self ep rest)
    have hrest : ∀ e ∈ rest, e.isUsed ≠ 0 := fun e he => ha e (List.mem_cons_of_mem ep he)
    have hunfold : rkh_evtPool_getPool ((ep :: rest) ++ b) ss es =
        ((rkh_evtPool_getPool (rest ++ b) ss es).1.map (· + 1),
          ep :: (rkh_evtPool_getPool (rest ++ b) ss es).2) := by
      simp only [List.cons_append, rkh_evtPool_getPool, if_neg hep, List.append_eq]
    rw [hunfold, ih hrest]
    cases hb : (rkh_evtPool_getPool b ss es).1 with
    | none => simp [hb]
    | some v =>
      simp [hb, Prod.ext_iff]
      try omega

theorem regSeq_from_clean (calls : List (Nat × Nat)) (used : List RKHEvtPool)
    (free : List RKHEvtPool)
    (hused : ∀ ep ∈ used, ep.isUsed ≠ 0)
    (hfree : ∀ ep ∈ free, ep.isUsed = 0)
    (hlen : calls.length = free.length) :
    (regSeq calls (used ++ free)).1 =
      (List.range calls.length).map (fun i => some (used.length + i)) ∧
    (∀ ep ∈ (regSeq calls (used ++ free)).2, ep.isUsed ≠ 0) ∧
    usedBlockSizes (regSeq calls (used ++ free)).2 =
      usedBlockSizes used ++ calls.map Prod.snd := by
  induction calls generalizing used free with
  | nil =>
    have h0 : free.length = 0 := by simpa using hlen.symm
    have hfe : free = [] := List.length_eq_zero.mp h0
    subst hfe
    refine ⟨by simp [regSeq], ?_, by simp [regSeq]⟩
    simpa [regSeq] using hused
  | cons c rest ih =>
    cases free with
    | nil => simp at hlen
    | cons f fr =>
      have hf : f.isUsed = 0 := hfree f (List.mem_cons_self f fr)
      have hfr : ∀ ep ∈ fr, ep.isUsed = 0 := fun e he => hfree e (List.mem_cons_of_mem f he)
      have hstep : rkh_evtPool_getPool (used ++ f :: fr) c.1 c.2 =
          (some used.length, used ++ (regPool c.1 c.2 :: fr)) := by
        rw [getPool_prefix_used used (f :: fr) c.1 c.2 hused]
        simp [rkh_evtPool_getPool, hf]
      have hused' : ∀ ep ∈ used ++ [regPool c.1 c.2], ep.isUsed ≠ 0 := by
        intro ep hep
        rcases List.mem_append.mp hep with h | h
        · exact hused ep h
        · simp at h; subst h; simp [regPool]
      have hlen' : rest.length = fr.length := by simp at hlen; omega
      have ihr := ih (used ++ [regPool c.1 c.2]) fr hused' hfr hlen'
      rw [List.append_assoc] at ihr
      simp only [List.singleton_append] at ihr
      refine ⟨?_, ?_, ?_⟩
      · simp only [regSeq, hstep]
        rw [ihr.1]
        simp only [List.range_succ_eq_map, List.map_cons, List.map_map,
          List.length_cons, List.length_append, List.length_singleton]
        refine congrArg₂ _ (by simp) ?_
        refine List.map_congr_left ?_
        intro i _
        simp [Function.comp]
        omega
      · simp only [regSeq, hstep]
        exact ihr.2.1
      · simp only [regSeq, hstep]
        rw [ihr.2.2]
        have husz : usedBlockSizes (used ++ [regPool c.1 c.2]) =
            usedBlockSizes used ++ [c.2] := by
          simp [usedBlockSizes, List.filter_append, regPool, rkh_mp_init]
        rw [husz]
        simp

theorem regSeq_allUsed (calls : List (Nat × Nat)) (pools : List RKHEvtPool)
    (h : ∀ ep ∈ pools, ep.isUsed ≠ 0) :
    (regSeq calls pools).1 = List.replicate calls.length none ∧
    (regSeq calls pools).2 = pools := by
  induction calls with
  | nil => simp [regSeq]
  | cons c rest ih =>
    simp only [regSeq, getPool_allUsed pools c.1 c.2 h]
    exact ⟨by simp [List.replicate_succ, ih.1], ih.2⟩

/-! ### Claims C1–C4 -/

/-- C1: the pool introspection operations `rkh_evtPool_getNumUsed`,
`rkh_evtPool_getNumMin` and `rkh_evtPool_getNumBlock` return constant
zero for every pool argument — in particular also for a pool from which
blocks have been taken with `rkh_evtPool_get` or returned with
`rkh_evtPool_put`, since the quantification ranges over every pool
state. -/
theorem evtPool_introspection_zero_C1 :
    ∀ me : Option RKHEvtPool,
      (rkh_evtPool_getNumUsed me).value = 0 ∧
      (rkh_evtPool_getNumMin me).value = 0 ∧
      (rkh_evtPool_getNumBlock me).value = 0 := by
  intro me
  exact ⟨rfl, rfl, rfl⟩

/-- C2: after `rkh_evtPool_init`, registration appends a new pool on each
call: with a registry of `n` slots, the first `n` calls return the
pairwise-distinct non-null pools `0, 1, …, n-1`, and every call after the
registry is full returns the null pool and leaves the registry
unchanged. -/
theorem evtPool_registration_C2 (n : Nat) (pools₀ : List RKHEvtPool)
    (calls extra : List (Nat × Nat))
    (hlen₀ : pools₀.length = n) (hcalls : calls.length = n) :
    (regSeq calls (rkh_evtPool_init pools₀)).1 = (List.range n).map some ∧
    ((regSeq calls (rkh_evtPool_init pools₀)).1.Nodup ∧
      ∀ r ∈ (regSeq calls (rkh_evtPool_init pools₀)).1, r ≠ none) ∧
    (regSeq extra (regSeq calls (rkh_evtPool_init pools₀)).2).1 =
      List.replicate extra.length none ∧
    (regSeq extra (regSeq calls (rkh_evtPool_init pools₀)).2).2 =
      (regSeq calls (rkh_evtPool_init pools₀)).2 := by
  have hfree : ∀ ep ∈ rkh_evtPool_init pools₀, ep.isUsed = 0 := by
    intro ep hep
    simp only [rkh_evtPool_init, List.mem_map] at hep
    obtain ⟨e, _, rfl⟩ := hep
    rfl
  have hlen : calls.length = (rkh_evtPool_init pools₀).length := by
    simp [rkh_evtPool_init, hlen₀, hcalls]
  have main := regSeq_from_clean calls [] (rkh_evtPool_init pools₀)
    (by intro ep h; simp at h) hfree hlen
  simp only [List.nil_append] at main
  have h1 : (regSeq calls (rkh_evtPool_init pools₀)).1 = (List.range n).map some := by
    rw [main.1, hcalls]
    simp
  have hfull := regSeq_allUsed extra _ main.2.1
  refine ⟨h1, ⟨?_, ?_⟩, hfull.1, hfull.2⟩
  · rw [h1]
    exact (List.nodup_range n).map (Option.some_injective Nat)
  · rw [h1]
    intro r hr
    simp only [List.mem_map] at hr
    obtain ⟨i, _, rfl⟩ := hr
    simp

/-- C3 evaluation: at the null pool, `rkh_evtPool_getBlockSize`,
`rkh_evtPool_get` and `rkh_evtPool_put` invoke the `rkh_assert`
precondition hook, while `rkh_evtPool_getNumUsed`, `rkh_evtPool_getNumMin`
and `rkh_evtPool_getNumBlock` return without invoking it — contradicting
the repository's own unit tests (`test_Fails_GetNumUsedInvalidInstance`
and companions), which expect the hook for all six accessors. -/
theorem evtPool_nullCheck_codeBug_C3 :
    (rkh_evtPool_getBlockSize none).asserted = true ∧
    (rkh_evtPool_get none).asserted = true ∧
    (rkh_evtPool_put none).asserted = true ∧
    (rkh_evtPool_getNumUsed none).asserted = false ∧
    (rkh_evtPool_getNumMin none).asserted = false ∧
    (rkh_evtPool_getNumBlock none).asserted = false := by
  exact ⟨rfl, rfl, rfl, rfl, rfl, rfl⟩

/-- C4 counterexample: registering a pool of block size 8 and then one of
block size 4 leaves the registry holding block sizes `[8, 4]` — the
registry is *not* kept ordered by block size; registration appends
without sorting. -/
theorem evtPool_notSorted_counterexample_C4 :
    ¬ List.Chain' (· ≤ ·)
      (usedBlockSizes
        (regSeq [(128, 8), (128, 4)]
          (rkh_evtPool_init [freshPool, freshPool])).2) := by
  have h : usedBlockSizes
      (regSeq [(128, 8), (128, 4)]
        (rkh_evtPool_init [freshPool, freshPool])).2 = [8, 4] := rfl
  rw [h]
  simp [List.chain'_cons]

/-- The first-fit behaviour of the modelled allocator: when pool `i` is the
first pool whose block size can hold `esize`, the allocation takes from
pool `i` when it has a free block and fails otherwise, never consulting a
later pool. -/
theorem rkh_fwk_ae_firstFit :
    ∀ (mps : List RKH_MP_T) (esize i : Nat), i < mps.length →
      (∀ j, j < i → (mps.getD j ⟨0, 0⟩).bsize < esize) →
      esize ≤ (mps.getD i ⟨0, 0⟩).bsize →
      ((mps.getD i ⟨0, 0⟩).nfree = 0 → rkh_fwk_ae mps esize = none) ∧
      ((mps.getD i ⟨0, 0⟩).nfree ≠ 0 →
        ∃ mps', rkh_fwk_ae mps esize = some (i, mps')) := by
  intro mps
  induction mps with
  | nil => intro esize i hi; simp at hi
  | cons mp rest ih =>
    intro esize i hi hfirst hfit
    cases i with
    | zero =>
      simp only [List.getD_cons_zero] at hfit ⊢
      constructor
      · intro h0
        simp [rkh_fwk_ae, hfit, rkh_mp_get, h0]
      · intro h0
        refine ⟨{ mp with nfree := mp.nfree - 1 } :: rest, ?_⟩
        simp [rkh_fwk_ae, hfit, rkh_mp_get, h0]
    | succ i' =>
      have hmp : mp.bsize < esize := by
        have := hfirst 0 (Nat.succ_pos i')
        simpa using this
      have hi' : i' < rest.length := by simpa using hi
      have hfirst' : ∀ j, j < i' → (rest.getD j ⟨0, 0⟩).bsize < esize := by
        intro j hj
        have := hfirst (j + 1) (by omega)
        simpa using this
      simp only [List.getD_cons_succ] at hfit ⊢
      have key := ih esize i' hi' hfirst' hfit
      constructor
      · intro h0
        have hn := key.1 h0
        simp [rkh_fwk_ae, Nat.not_le.mpr hmp, hn]
      · intro h0
        obtain ⟨mps', hmps'⟩ := key.2 h0
        refine ⟨mp :: mps', ?_⟩
        simp [rkh_fwk_ae, Nat.not_le.mpr hmp, hmps']

/-- C4 amended: registration appends pools in call order (so the registry
is size-ordered only when the application registers pools in ascending
block size, as the framework convention requires); allocation — modelled
from the spec, `rkhfwk_dynevt.c` being absent — scans the pools in
registration order, takes the first block from the first pool whose block
size is at least the requested size, and when that pool is exhausted the
allocation fails without falling back to any later pool. -/
theorem evtPool_firstFit_C4 (pools₀ : List RKHEvtPool)
    (calls : List (Nat × Nat)) (hlen : calls.length = pools₀.length)
    (mps : List RKH_MP_T) (esize i : Nat)
    (hi : i < mps.length)
    (hfirst : ∀ j, j < i → (mps.getD j ⟨0, 0⟩).bsize < esize)
    (hfit : esize ≤ (mps.getD i ⟨0, 0⟩).bsize) :
    usedBlockSizes (regSeq calls (rkh_evtPool_init pools₀)).2 =
      calls.map Prod.snd ∧
    ((mps.getD i ⟨0, 0⟩).nfree = 0 → rkh_fwk_ae mps esize = none) ∧
    ((mps.getD i ⟨0, 0⟩).nfree ≠ 0 →
      ∃ mps', rkh_fwk_ae mps esize = some (i, mps')) := by
  refine ⟨?_, rkh_fwk_ae_firstFit mps esize i hi hfirst hfit⟩
  have hfree : ∀ ep ∈ rkh_evtPool_init pools₀, ep.isUsed = 0 := by
    intro ep hep
    simp only [rkh_evtPool_init, List.mem_map] at hep
    obtain ⟨e, _, rfl⟩ := hep
    rfl
  have hlen' : calls.length = (rkh_evtPool_init pools₀).length := by
    simp [rkh_evtPool_init, hlen]
  have main := regSeq_from_clean calls [] (rkh_evtPool_init pools₀)
    (by intro ep h; simp at h) hfree hlen'
  simpa [usedBlockSizes] using main.2.2

/-- C2 witness: a registry of two slots; both calls succeed with distinct
pools, the third fails leaving the registry unchanged. -/
theorem evtPool_registration_C2_witness :
    (regSeq [(128, 32), (64, 16)]
        (rkh_evtPool_init [freshPool, freshPool])).1 =
      (List.range 2).map some ∧
    (regSeq [(96, 8)]
        (regSeq [(128, 32), (64, 16)]
          (rkh_evtPool_init [freshPool, freshPool])).2).1 =
      List.replicate 1 none := by
  have h := evtPool_registration_C2 2 [freshPool, freshPool]
    [(128, 32), (64, 16)] [(96, 8)] (by decide) (by decide)
  exact ⟨h.1, h.2.2.1⟩

/-- C4 witness: pools of block sizes 4 (no free blocks) and 8 (five free
blocks); a request of size 3 fits pool 0 first, and the allocation fails
even though pool 1 could serve it. -/
theorem evtPool_firstFit_C4_witness :
    usedBlockSizes (regSeq [(32, 4), (64, 8)]
        (rkh_evtPool_init [freshPool, freshPool])).2 = [4, 8] ∧
    rkh_fwk_ae [⟨4, 0⟩, ⟨8, 5⟩] 3 = none := by
  have h := evtPool_firstFit_C4 [freshPool, freshPool] [(32, 4), (64, 8)]
    (by decide) [⟨4, 0⟩, ⟨8, 5⟩] 3 0 (by decide)
    (by intro j hj; omega) (by decide)
  exact ⟨h.1, h.2.1 (by decide)⟩

/-! ### Bit-level lemmas for the trace filters -/

theorem rkh_maptbl_two_pow (i : Nat) (h : i < 8) : rkh_maptbl i = 2 ^ i := by
  interval_cases i <;> rfl

theorem and_two_pow_ne_zero (x i : Nat) :
    (x &&& 2 ^ i ≠ 0) ↔ x.testBit i = true := by
  rw [Nat.and_two_pow]
  cases h : x.testBit i <;> simp [h]

theorem and_two_pow_eq_zero (x i : Nat) :
    (x &&& 2 ^ i = 0) ↔ x.testBit i = false := by
  rw [Nat.and_two_pow]
  cases h : x.testBit i <;> simp [h]

theorem getD_set_self (l : List Nat) (i v d : Nat) (h : i < l.length) :
    (l.set i v).getD i d = v := by
  simp [List.getD_eq_getElem?_getD, List.getElem?_set_self h]

theorem getD_set_ne (l : List Nat) (i j v d : Nat) (h : i ≠ j) :
    (l.set i v).getD j d = l.getD j d := by
  simp [List.getD_eq_getElem?_getD, List.getElem?_set_ne h]

theorem fillBytes_getD (tbl : List Nat) (o r c i : Nat) (h : i < tbl.length) :
    (fillBytes tbl o r c).getD i 0 =
      if o ≤ i ∧ i < o + r then c else tbl.getD i 0 := by
  simp [fillBytes, List.getD_eq_getElem?_getD, List.getElem?_range h]

theorem GETGRP_lt_8 (e : Nat) : GETGRP e < 8 := by
  unfold GETGRP
  have h1 : e &&& 0xE0 ≤ 0xE0 := Nat.and_le_right
  rw [Nat.shiftRight_eq_div_pow]
  omega

theorem GETGRP_le_6 (e : Nat) (h : e < 224) : GETGRP e ≤ 6 := by
  unfold GETGRP
  have h1 : e &&& 0xE0 ≤ e := Nat.and_le_left
  rw [Nat.shiftRight_eq_div_pow]
  omega

theorem GETEVT_le_31 (e : Nat) : GETEVT e ≤ 31 := Nat.and_le_right

theorem lowBits_lt_8 (x : Nat) : x &&& 0x07 < 8 := by
  have : x &&& 0x07 ≤ 0x07 := Nat.and_le_right
  omega

theorem trcEvtIndex_lt (e : Nat) (h : e < 224) : trcEvtIndex e < 14 := by
  unfold trcEvtIndex
  have hg := GETGRP_le_6 e h
  have he := GETEVT_le_31 e
  have h3 : GETEVT e / 8 ≤ 3 := by omega
  simp only [Nat.shiftRight_eq_div_pow]
  set g := GETGRP e with hgdef
  interval_cases g <;> norm_num [trcgmtbl] <;> omega

theorem or_mask_testBit (x i : Nat) (h : i < 8) :
    ((x ||| rkh_maptbl i) &&& rkh_maptbl i ≠ 0) := by
  rw [rkh_maptbl_two_pow i h, and_two_pow_ne_zero]
  simp [Nat.testBit_two_pow]

theorem testBit_255 (i : Nat) (h : i < 8) : Nat.testBit 255 i = true := by
  rw [show (255 : Nat) = 2 ^ 8 - 1 by norm_num, Nat.testBit_two_pow_sub_one]
  simp [h]

theorem clear_mask_testBit (x i : Nat) (h : i < 8) :
    ((x &&& (0xFF ^^^ rkh_maptbl i)) &&& rkh_maptbl i = 0) := by
  rw [rkh_maptbl_two_pow i h, and_two_pow_eq_zero]
  simp [testBit_255 i h, Nat.testBit_two_pow]

theorem or_mask_testBit_other (x i j : Nat) (hi : i < 8) (hij : i ≠ j) :
    (x ||| rkh_maptbl i).testBit j = x.testBit j := by
  rw [rkh_maptbl_two_pow i hi]
  simp [Nat.testBit_two_pow, hij]

theorem clear_mask_testBit_other (x i j : Nat) (hi : i < 8) (hj : j < 8)
    (hij : i ≠ j) :
    (x &&& (0xFF ^^^ rkh_maptbl i)).testBit j = x.testBit j := by
  rw [rkh_maptbl_two_pow i hi]
  have hpow : (2 ^ i).testBit j = false := by
    rw [Nat.testBit_two_pow]
    simp [hij]
  simp [testBit_255 j hj, hpow]

/-! ### Claims C5, C6, C10 -/

/-- C5: a trace point with event id `e` is enabled by `rkh_trc_isoff_` iff
both the filter bit of `e`'s group and the filter bit of `e` itself are
enabled; `rkh_trc_filter_event_` with `FILTER_OFF` on a single event also
sets that event's group bit (so the event becomes enabled); and
`rkh_trc_filter_group_` with `FILTER_ON` and mode `ECHANGE` on a group
clears the group bit and the event bit of every event of that group, so
every such event is disabled. -/
theorem trc_filter_C5 :
    (∀ (f : TrcFilters) (e : Nat),
      rkh_trc_isoff_ f e = true ↔
        (groupBitEnabled f e = true ∧ eventBitEnabled f e = true)) ∧
    (∀ (f : TrcFilters) (e : Nat), e < 224 →
      f.trceftbl.length = RKH_TRC_MAX_EVENTS_IN_BYTES →
      rkh_trc_isoff_ (rkh_trc_filter_event_ FILTER_OFF e f) e = true) ∧
    (∀ (f : TrcFilters) (e : Nat), e < 224 →
      f.trceftbl.length = RKH_TRC_MAX_EVENTS_IN_BYTES →
      GETEVT e >>> 3 < trcgmtbl.getD (GETGRP e) 0 &&& 0x0F →
      rkh_trc_isoff_
          (rkh_trc_filter_group_ FILTER_ON (GETGRP e) ECHANGE f) e = false ∧
      eventBitEnabled
          (rkh_trc_filter_group_ FILTER_ON (GETGRP e) ECHANGE f) e = false) := by
  refine ⟨?_, ?_, ?_⟩
  · intro f e
    simp [rkh_trc_isoff_, Bool.and_eq_true]
  · intro f e he hlen
    have hne : e ≠ RKH_TRC_ALL_EVENTS := by
      unfold RKH_TRC_ALL_EVENTS
      omega
    have hidx : trcEvtIndex e < f.trceftbl.length := by
      rw [hlen]
      exact trcEvtIndex_lt e he
    have hf2 : rkh_trc_filter_event_ FILTER_OFF e f =
        { trcgfilter := f.trcgfilter ||| rkh_maptbl (GETGRP e),
          trceftbl := (setByte f.trceftbl (trcEvtIndex e)
            (· ||| rkh_maptbl (GETEVT e &&& 0x7))) } := by
      unfold rkh_trc_filter_event_
      rw [if_neg hne, if_pos rfl]
    have hg : groupBitEnabled (rkh_trc_filter_event_ FILTER_OFF e f) e = true := by
      unfold groupBitEnabled
      rw [hf2]
      exact decide_eq_true (or_mask_testBit _ _ (GETGRP_lt_8 e))
    have hev : eventBitEnabled (rkh_trc_filter_event_ FILTER_OFF e f) e = true := by
      unfold eventBitEnabled
      rw [hf2]
      have hset : (setByte f.trceftbl (trcEvtIndex e)
          (· ||| rkh_maptbl (GETEVT e &&& 0x7))).getD (trcEvtIndex e) 0 =
          f.trceftbl.getD (trcEvtIndex e) 0 ||| rkh_maptbl (GETEVT e &&& 0x7) := by
        unfold setByte
        exact getD_set_self _ _ _ _ hidx
      simp only [hset]
      exact decide_eq_true (or_mask_testBit _ _ (lowBits_lt_8 (GETEVT e)))
    unfold rkh_trc_isoff_
    rw [hg, hev]
    rfl
  · intro f e he hlen hrng
    have hgrp : GETGRP e ≠ RKH_TRC_ALL_GROUPS := by
      have := GETGRP_le_6 e he
      unfold RKH_TRC_ALL_GROUPS
      omega
    have hctrl : FILTER_ON ≠ FILTER_OFF := by decide
    have hidx : trcEvtIndex e < f.trceftbl.length := by
      rw [hlen]
      exact trcEvtIndex_lt e he
    have hf2 : rkh_trc_filter_group_ FILTER_ON (GETGRP e) ECHANGE f =
        { trcgfilter := f.trcgfilter &&& (0xFF ^^^ rkh_maptbl (GETGRP e)),
          trceftbl := (fillBytes f.trceftbl (trcgmtbl.getD (GETGRP e) 0 >>> 4)
            (trcgmtbl.getD (GETGRP e) 0 &&& 0x0F) 0) } := by
      unfold rkh_trc_filter_group_
      rw [if_neg hgrp, if_neg hctrl, if_pos rfl, if_neg hctrl]
    have hbyte : (fillBytes f.trceftbl (trcgmtbl.getD (GETGRP e) 0 >>> 4)
        (trcgmtbl.getD (GETGRP e) 0 &&& 0x0F) 0).getD (trcEvtIndex e) 0 = 0 := by
      have hin : (trcgmtbl.getD (GETGRP e) 0 >>> 4) ≤ trcEvtIndex e ∧
          trcEvtIndex e < (trcgmtbl.getD (GETGRP e) 0 >>> 4) +
            (trcgmtbl.getD (GETGRP e) 0 &&& 0x0F) := by
        unfold trcEvtIndex
        omega
      rw [fillBytes_getD _ _ _ _ _ hidx, if_pos hin]
    have hgB : groupBitEnabled
        (rkh_trc_filter_group_ FILTER_ON (GETGRP e) ECHANGE f) e = false := by
      unfold groupBitEnabled
      rw [hf2]
      simp only [clear_mask_testBit _ _ (GETGRP_lt_8 e)]
      simp
    have hev : eventBitEnabled
        (rkh_trc_filter_group_ FILTER_ON (GETGRP e) ECHANGE f) e = false := by
      unfold eventBitEnabled
      rw [hf2]
      simp only [hbyte]
      simp
    refine ⟨?_, hev⟩
    unfold rkh_trc_isoff_
    rw [hgB]
    simp

/-- C6: `rkh_trc_simfil` with `FILTER_OFF` makes `rkh_trc_simfil_isoff`
report the slot as on (true), with `FILTER_ON` as off (false), and in both
cases every other slot's filter status is unchanged. -/
theorem trc_simfil_C6 (f : FIL_T) (slot : Nat)
    (hlen : slot >>> 3 < f.tbl.length) :
    rkh_trc_simfil_isoff (rkh_trc_simfil f slot FILTER_OFF) slot = true ∧
    rkh_trc_simfil_isoff (rkh_trc_simfil f slot FILTER_ON) slot = false ∧
    (∀ slot2, slot2 ≠ slot →
      rkh_trc_simfil_isoff (rkh_trc_simfil f slot FILTER_OFF) slot2 =
        rkh_trc_simfil_isoff f slot2 ∧
      rkh_trc_simfil_isoff (rkh_trc_simfil f slot FILTER_ON) slot2 =
        rkh_trc_simfil_isoff f slot2) := by
  have hoff : rkh_trc_simfil f slot FILTER_OFF =
      { f with tbl := (setByte f.tbl (slot >>> 3)
          (· ||| rkh_maptbl (slot &&& 0x07))) } := by
    unfold rkh_trc_simfil FILTER_OFF RKH_FILTER_MODE_MASK RKH_TRC_ALL_FILTERS
    norm_num
  have hon : rkh_trc_simfil f slot FILTER_ON =
      { f with tbl := (setByte f.tbl (slot >>> 3)
          (· &&& (0xFF ^^^ rkh_maptbl (slot &&& 0x07)))) } := by
    unfold rkh_trc_simfil FILTER_ON FILTER_OFF RKH_FILTER_MODE_MASK
      RKH_TRC_ALL_FILTERS
    norm_num
  have hbit : slot &&& 0x07 < 8 := lowBits_lt_8 slot
  have hsetoff : (setByte f.tbl (slot >>> 3)
      (· ||| rkh_maptbl (slot &&& 0x07))).getD (slot >>> 3) 0 =
      f.tbl.getD (slot >>> 3) 0 ||| rkh_maptbl (slot &&& 0x07) := by
    unfold setByte
    exact getD_set_self _ _ _ _ hlen
  have hseton : (setByte f.tbl (slot >>> 3)
      (· &&& (0xFF ^^^ rkh_maptbl (slot &&& 0x07)))).getD (slot >>> 3) 0 =
      f.tbl.getD (slot >>> 3) 0 &&& (0xFF ^^^ rkh_maptbl (slot &&& 0x07)) := by
    unfold setByte
    exact getD_set_self _ _ _ _ hlen
  refine ⟨?_, ?_, ?_⟩
  · rw [hoff]
    unfold rkh_trc_simfil_isoff
    simp only [hsetoff]
    exact decide_eq_true (or_mask_testBit _ _ hbit)
  · rw [hon]
    unfold rkh_trc_simfil_isoff
    simp only [hseton]
    simp [clear_mask_testBit _ _ hbit]
  · intro slot2 hne
    have hbit2 : slot2 &&& 0x07 < 8 := lowBits_lt_8 slot2
    by_cases hby : slot2 >>> 3 = slot >>> 3
    · have hx : slot &&& 0x07 ≠ slot2 &&& 0x07 := by
        intro hctr
        apply hne
        have hm : slot &&& 0x07 = slot % 8 := by
          have h7 : (0x07 : Nat) = 2 ^ 3 - 1 := by norm_num
          rw [h7, Nat.and_pow_two_sub_one_eq_mod]
        have hm2 : slot2 &&& 0x07 = slot2 % 8 := by
          have h7 : (0x07 : Nat) = 2 ^ 3 - 1 := by norm_num
          rw [h7, Nat.and_pow_two_sub_one_eq_mod]
        have hd : slot >>> 3 = slot / 8 := by
          rw [Nat.shiftRight_eq_div_pow]
        have hd2 : slot2 >>> 3 = slot2 / 8 := by
          rw [Nat.shiftRight_eq_div_pow]
        rw [hm, hm2] at hctr
        rw [hd, hd2] at hby
        omega
      have hoff2 : (setByte f.tbl (slot >>> 3)
          (· ||| rkh_maptbl (slot &&& 0x07))).getD (slot2 >>> 3) 0 &&&
          rkh_maptbl (slot2 &&& 0x07) =
          f.tbl.getD (slot2 >>> 3) 0 &&& rkh_maptbl (slot2 &&& 0x07) := by
        unfold setByte
        rw [hby, getD_set_self _ _ _ _ hlen,
          rkh_maptbl_two_pow _ hbit2, Nat.and_two_pow, Nat.and_two_pow,
          or_mask_testBit_other _ _ _ hbit hx]
      have hon2 : (setByte f.tbl (slot >>> 3)
          (· &&& (0xFF ^^^ rkh_maptbl (slot &&& 0x07)))).getD (slot2 >>> 3) 0 &&&
          rkh_maptbl (slot2 &&& 0x07) =
          f.tbl.getD (slot2 >>> 3) 0 &&& rkh_maptbl (slot2 &&& 0x07) := by
        unfold setByte
        rw [hby, getD_set_self _ _ _ _ hlen,
          rkh_maptbl_two_pow _ hbit2, Nat.and_two_pow, Nat.and_two_pow,
          clear_mask_testBit_other _ _ _ hbit hbit2 hx]
      constructor
      · rw [hoff]
        unfold rkh_trc_simfil_isoff
        simp only [hoff2]
      · rw [hon]
        unfold rkh_trc_simfil_isoff
        simp only [hon2]
    · have hoff2 : (setByte f.tbl (slot >>> 3)
          (· ||| rkh_maptbl (slot &&& 0x07))).getD (slot2 >>> 3) 0 =
          f.tbl.getD (slot2 >>> 3) 0 := by
        unfold setByte
        exact getD_set_ne _ _ _ _ _ (fun hctr => hby hctr.symm)
      have hon2 : (setByte f.tbl (slot >>> 3)
          (· &&& (0xFF ^^^ rkh_maptbl (slot &&& 0x07)))).getD (slot2 >>> 3) 0 =
          f.tbl.getD (slot2 >>> 3) 0 := by
        unfold setByte
        exact getD_set_ne _ _ _ _ _ (fun hctr => hby hctr.symm)
      constructor
      · rw [hoff]
        unfold rkh_trc_simfil_isoff
        simp only [hoff2]
      · rw [hon]
        unfold rkh_trc_simfil_isoff
        simp only [hon2]

/-- C5 witness: with all filters cleared and event id `0x20` (group RQ,
event 0), turning the event's filter off enables it, and turning its
group's filter on with `ECHANGE` disables it. -/
theorem trc_filter_C5_witness :
    rkh_trc_isoff_
      (rkh_trc_filter_event_ FILTER_OFF 0x20 ⟨0, List.replicate 14 0⟩)
      0x20 = true ∧
    rkh_trc_isoff_
      (rkh_trc_filter_group_ FILTER_ON (GETGRP 0x20) ECHANGE
        ⟨0xFF, List.replicate 14 0xFF⟩) 0x20 = false := by
  refine ⟨trc_filter_C5.2.1 ⟨0, List.replicate 14 0⟩ 0x20 (by decide) (by decide),
    (trc_filter_C5.2.2 ⟨0xFF, List.replicate 14 0xFF⟩ 0x20 (by decide) (by decide)
      (by decide)).1⟩

/-- C6 witness: in a two-byte filter table, slot 5 is turned on then off
while slot 9 keeps its status. -/
theorem trc_simfil_C6_witness :
    rkh_trc_simfil_isoff (rkh_trc_simfil ⟨2, [0, 0]⟩ 5 FILTER_OFF) 5 = true ∧
    rkh_trc_simfil_isoff (rkh_trc_simfil ⟨2, [0, 0]⟩ 5 FILTER_ON) 5 = false ∧
    rkh_trc_simfil_isoff (rkh_trc_simfil ⟨2, [0, 0]⟩ 5 FILTER_OFF) 9 =
      rkh_trc_simfil_isoff ⟨2, [0, 0]⟩ 9 := by
  have h := trc_simfil_C6 ⟨2, [0, 0]⟩ 5 (by decide)
  exact ⟨h.1, h.2.1, (h.2.2 9 (by decide)).1⟩

/-- C10 counterexample: with every bit of the AO filter table set (so every
ordinary priority is filtered out), the check still returns true — the
record is emitted — for an AO of priority `RKH_MAX_SMA` (here 8).  Since
`RKH_TRC_BEGIN` emits a record exactly when `rkh_trc_sma_isoff_` returns
nonzero, returning true means *not* filtered out, refuting the claim that
such an AO is always filtered out. -/
theorem trc_smaFilter_counterexample_C10 :
    ¬ (rkh_trc_sma_isoff_ 8 [0xFF] 8 = false) := by
  decide

/-- C10 amended: `rkh_trc_sma_isoff_` reports an AO whose priority equals
`RKH_MAX_SMA` as never filtered out (the check passes for every content of
the filter table); for every priority below `RKH_MAX_SMA` the result is
determined solely by that priority's bit in the table: the check passes
iff the bit is clear. -/
theorem trc_smaFilter_C10 (maxSMA : Nat) (tbl : List Nat) (prio : Nat) :
    (prio = maxSMA → rkh_trc_sma_isoff_ maxSMA tbl prio = true) ∧
    (prio < maxSMA →
      (rkh_trc_sma_isoff_ maxSMA tbl prio = true ↔
        (tbl.getD (prio >>> 3) 0).testBit (prio &&& 0x07) = false)) := by
  constructor
  · intro h
    unfold rkh_trc_sma_isoff_
    rw [if_pos h]
  · intro h
    have hne : prio ≠ maxSMA := by omega
    unfold rkh_trc_sma_isoff_
    rw [if_neg hne]
    rw [rkh_maptbl_two_pow _ (lowBits_lt_8 prio)]
    rw [decide_eq_true_iff]
    exact and_two_pow_eq_zero _ _

/-! ### Trace stream lemmas -/

theorem wrap_eq_mod (x n : Nat) (h : x < n) :
    (if x + 1 = n then 0 else x + 1) = (x + 1) % n := by
  by_cases he : x + 1 = n
  · rw [if_pos he, he, Nat.mod_self]
  · rw [if_neg he, Nat.mod_eq_of_lt (by omega)]

theorem wrapGe_eq_mod (x n : Nat) (h : x < n) :
    (if n ≤ x + 1 then 0 else x + 1) = (x + 1) % n := by
  by_cases he : n ≤ x + 1
  · have hx : x + 1 = n := by omega
    rw [if_pos he, hx, Nat.mod_self]
  · rw [if_neg he, Nat.mod_eq_of_lt (by omega)]

theorem rkh_trc_put_fields (b : Nat) (s : TrcStream) (h : TrcInv s)
    (hlt : s.qty < s.size) :
    (rkh_trc_put b s).buf = s.buf.set s.tin b ∧
    (rkh_trc_put b s).tin = (s.tin + 1) % s.size ∧
    (rkh_trc_put b s).tout = s.tout ∧
    (rkh_trc_put b s).qty = s.qty + 1 ∧
    (rkh_trc_put b s).size = s.size ∧
    (rkh_trc_put b s).chk = s.chk := by
  obtain ⟨hlen, hsz, htin, htout, hqty, heq⟩ := h
  have htin2 : (if s.tin + 1 = s.size then 0 else s.tin + 1) =
      (s.tin + 1) % s.size := wrap_eq_mod _ _ htin
  simp only [rkh_trc_put]
  by_cases hc : s.size ≤ s.qty + 1
  · have hq1 : s.qty + 1 = s.size := by omega
    have htt : (s.tin + 1) % s.size = s.tout := by
      rw [heq, Nat.mod_add_mod]
      have hstep : s.tout + s.qty + 1 = s.tout + s.size := by omega
      rw [hstep, Nat.add_mod_right, Nat.mod_eq_of_lt htout]
    rw [if_pos hc]
    exact ⟨rfl, htin2, htin2.trans htt, hq1.symm, rfl, rfl⟩
  · rw [if_neg hc]
    exact ⟨rfl, htin2, rfl, rfl, rfl, rfl⟩

theorem rkh_trc_put_size (b : Nat) (s : TrcStream) :
    (rkh_trc_put b s).size = s.size := by
  simp only [rkh_trc_put]
  by_cases hc : s.size ≤ s.qty + 1
  · rw [if_pos hc]
  · rw [if_neg hc]

theorem rkh_trc_put_chk (b : Nat) (s : TrcStream) :
    (rkh_trc_put b s).chk = s.chk := by
  simp only [rkh_trc_put]
  by_cases hc : s.size ≤ s.qty + 1
  · rw [if_pos hc]
  · rw [if_neg hc]

theorem rkh_trc_get_size (s : TrcStream) :
    (rkh_trc_get s).2.size = s.size := by
  simp only [rkh_trc_get]
  by_cases hq : s.qty = 0
  · rw [if_pos hq]
  · rw [if_neg hq]

theorem TrcInv_put (b : Nat) (s : TrcStream) (h : TrcInv s) :
    TrcInv (rkh_trc_put b s) := by
  obtain ⟨hlen, hsz, htin, htout, hqty, heq⟩ := h
  have htin2 : (if s.tin + 1 = s.size then 0 else s.tin + 1) =
      (s.tin + 1) % s.size := wrap_eq_mod _ _ htin
  have htin2lt : (if s.tin + 1 = s.size then 0 else s.tin + 1) < s.size := by
    rw [htin2]
    exact Nat.mod_lt _ (by omega)
  simp only [rkh_trc_put]
  by_cases hc : s.size ≤ s.qty + 1
  · rw [if_pos hc]
    unfold TrcInv
    dsimp only
    refine ⟨by simp [hlen], hsz, htin2lt, htin2lt, Nat.le_refl _, ?_⟩
    rw [Nat.add_mod_right, Nat.mod_eq_of_lt htin2lt]
  · rw [if_neg hc]
    unfold TrcInv
    dsimp only
    refine ⟨by simp [hlen], hsz, htin2lt, htout, by omega, ?_⟩
    rw [htin2, heq, Nat.mod_add_mod]
    congr 1

theorem TrcInv_get (s : TrcStream) (h : TrcInv s) :
    TrcInv (rkh_trc_get s).2 := by
  obtain ⟨hlen, hsz, htin, htout, hqty, heq⟩ := h
  simp only [rkh_trc_get]
  by_cases hq : s.qty = 0
  · rw [if_pos hq]
    exact ⟨hlen, hsz, htin, htout, hqty, heq⟩
  · rw [if_neg hq]
    have htout2 : (if s.size ≤ s.tout + 1 then 0 else s.tout + 1) =
        (s.tout + 1) % s.size := wrapGe_eq_mod _ _ htout
    have htout2lt : (if s.size ≤ s.tout + 1 then 0 else s.tout + 1) < s.size := by
      rw [htout2]
      exact Nat.mod_lt _ (by omega)
    unfold TrcInv
    dsimp only
    refine ⟨hlen, hsz, htin, htout2lt, by omega, ?_⟩
    rw [htout2, Nat.mod_add_mod, heq]
    congr 1
    omega

theorem TrcInv_init (size : Nat) (h : 1 ≤ size) : TrcInv (rkh_trc_init size) := by
  apply TrcInv_put
  unfold TrcInv
  dsimp only
  refine ⟨by simp, h, by omega, by omega, by omega, by simp⟩

theorem TrcInv_applyOps (ops : List TrcOp) (s : TrcStream) (h : TrcInv s) :
    TrcInv (applyTrcOps s ops) := by
  induction ops generalizing s with
  | nil => exact h
  | cons op rest ih =>
    cases op with
    | put b => exact ih _ (TrcInv_put b s h)
    | get => exact ih _ (TrcInv_get s h)

theorem applyTrcOps_size (ops : List TrcOp) (s : TrcStream) :
    (applyTrcOps s ops).size = s.size := by
  induction ops generalizing s with
  | nil => rfl
  | cons op rest ih =>
    cases op with
    | put b => rw [applyTrcOps, applyTrcOp, ih, rkh_trc_put_size]
    | get => rw [applyTrcOps, applyTrcOp, ih, rkh_trc_get_size]

theorem trcContents_put_append (b : Nat) (s : TrcStream) (h : TrcInv s)
    (hlt : s.qty < s.size) :
    trcContents (rkh_trc_put b s) = trcContents s ++ [b] := by
  have hf := rkh_trc_put_fields b s h hlt
  obtain ⟨hlen, hsz, htin, htout, hqty, heq⟩ := h
  unfold trcContents
  rw [hf.1, hf.2.2.1, hf.2.2.2.1, hf.2.2.2.2.1]
  rw [List.range_succ, List.map_append]
  congr 1
  · refine List.map_congr_left ?_
    intro i hi
    simp only [List.mem_range] at hi
    have hne : s.tin ≠ (s.tout + i) % s.size := by
      rw [heq]
      intro hmod
      have hmodeq : Nat.ModEq s.size (s.tout + i) (s.tout + s.qty) := hmod.symm
      have hdvd : s.size ∣ (s.tout + s.qty) - (s.tout + i) :=
        (Nat.modEq_iff_dvd' (by omega)).mp hmodeq
      have hle : s.size ≤ (s.tout + s.qty) - (s.tout + i) :=
        Nat.le_of_dvd (by omega) hdvd
      omega
    exact getD_set_ne _ _ _ _ _ hne
  · simp only [List.map_cons, List.map_nil]
    rw [show (s.tout + s.qty) % s.size = s.tin from heq.symm]
    rw [getD_set_self _ _ _ _ (by rw [hlen]; exact htin)]

theorem trcContents_put_full (b : Nat) (s : TrcStream) (h : TrcInv s)
    (hfull : s.qty = s.size) :
    trcContents (rkh_trc_put b s) = (trcContents s).tail ++ [b] ∧
    (rkh_trc_put b s).qty = s.size := by
  obtain ⟨hlen, hsz, htin, htout, hqty, heq⟩ := h
  have htt : s.tin = s.tout := by
    rw [heq, hfull, Nat.add_mod_right, Nat.mod_eq_of_lt htout]
  have htail : (trcContents s).tail =
      (List.range (s.size - 1)).map
        (fun i => s.buf.getD ((s.tout + (i + 1)) % s.size) 0) := by
    unfold trcContents
    rw [hfull, show s.size = (s.size - 1) + 1 by omega, List.range_succ_eq_map]
    simp only [List.map_cons, List.map_map, List.tail_cons]
    rfl
  simp only [rkh_trc_put]
  rw [if_pos (by omega)]
  refine ⟨?_, rfl⟩
  rw [htail]
  unfold trcContents
  dsimp only
  rw [wrap_eq_mod _ _ htin, htt]
  have hrange : List.range s.size = List.range (s.size - 1) ++ [s.size - 1] := by
    conv_lhs => rw [show s.size = (s.size - 1) + 1 by omega]
    rw [List.range_succ]
  rw [hrange, List.map_append]
  congr 1
  · refine List.map_congr_left ?_
    intro i hi
    simp only [List.mem_range] at hi
    rw [Nat.mod_add_mod]
    have hne : s.tout ≠ (s.tout + 1 + i) % s.size := by
      intro hmod
      have hmodeq : Nat.ModEq s.size s.tout (s.tout + 1 + i) := by
        unfold Nat.ModEq
        rw [← hmod, Nat.mod_eq_of_lt htout]
      have hdvd : s.size ∣ (s.tout + 1 + i) - s.tout :=
        (Nat.modEq_iff_dvd' (by omega)).mp hmodeq
      have hle : s.size ≤ (s.tout + 1 + i) - s.tout :=
        Nat.le_of_dvd (by omega) hdvd
      omega
    rw [getD_set_ne _ _ _ _ _ hne,
      show s.tout + 1 + i = s.tout + (i + 1) from by omega]
  · simp only [List.map_cons, List.map_nil]
    rw [Nat.mod_add_mod, show s.tout + 1 + (s.size - 1) = s.tout + s.size by omega,
      Nat.add_mod_right, Nat.mod_eq_of_lt htout]
    rw [getD_set_self _ _ _ _ (by rw [hlen, ← htt]; exact htin)]

theorem rkh_trc_get_none_iff (s : TrcStream) :
    (rkh_trc_get s).1 = none ↔ s.qty = 0 := by
  simp only [rkh_trc_get]
  by_cases hq : s.qty = 0
  · rw [if_pos hq]
    simp [hq]
  · rw [if_neg hq]
    simp [hq]

theorem rkh_trc_get_spec (s : TrcStream) (h : TrcInv s) (hq : s.qty ≠ 0) :
    (rkh_trc_get s).1 = (trcContents s).head? ∧
    (rkh_trc_get s).2.qty = s.qty - 1 ∧
    trcContents (rkh_trc_get s).2 = (trcContents s).tail := by
  obtain ⟨hlen, hsz, htin, htout, hqty, heq⟩ := h
  have hq1 : s.qty = (s.qty - 1) + 1 := by omega
  have hhead : (trcContents s).head? = some (s.buf.getD s.tout 0) := by
    unfold trcContents
    rw [hq1, List.range_succ_eq_map]
    simp [Nat.mod_eq_of_lt htout]
  have htail : (trcContents s).tail =
      (List.range (s.qty - 1)).map
        (fun i => s.buf.getD ((s.tout + (i + 1)) % s.size) 0) := by
    unfold trcContents
    rw [hq1, List.range_succ_eq_map]
    simp only [List.map_cons, List.map_map, List.tail_cons]
    rfl
  simp only [rkh_trc_get]
  rw [if_neg hq]
  refine ⟨by rw [hhead], rfl, ?_⟩
  rw [htail]
  unfold trcContents
  dsimp only
  rw [wrapGe_eq_mod _ _ htout]
  refine List.map_congr_left ?_
  intro i hi
  rw [Nat.mod_add_mod]
  congr 2
  omega

/-- C8: from `rkh_trc_init` on, under every interleaving of `rkh_trc_put`
and `rkh_trc_get`, the stored count stays between 0 and the stream size;
`rkh_trc_get` returns the null pointer exactly when the count is zero and
otherwise returns the oldest unconsumed byte and decrements the count;
`rkh_trc_put` on a full stream keeps the count saturated and discards the
oldest byte in favour of the new one. -/
theorem trc_stream_C8 (size : Nat) (hsz : 1 ≤ size) (ops : List TrcOp) (b : Nat) :
    (applyTrcOps (rkh_trc_init size) ops).qty ≤ size ∧
    ((rkh_trc_get (applyTrcOps (rkh_trc_init size) ops)).1 = none ↔
      (applyTrcOps (rkh_trc_init size) ops).qty = 0) ∧
    ((applyTrcOps (rkh_trc_init size) ops).qty ≠ 0 →
      (rkh_trc_get (applyTrcOps (rkh_trc_init size) ops)).1 =
        (trcContents (applyTrcOps (rkh_trc_init size) ops)).head? ∧
      (rkh_trc_get (applyTrcOps (rkh_trc_init size) ops)).2.qty =
        (applyTrcOps (rkh_trc_init size) ops).qty - 1 ∧
      trcContents (rkh_trc_get (applyTrcOps (rkh_trc_init size) ops)).2 =
        (trcContents (applyTrcOps (rkh_trc_init size) ops)).tail) ∧
    ((applyTrcOps (rkh_trc_init size) ops).qty = size →
      (rkh_trc_put b (applyTrcOps (rkh_trc_init size) ops)).qty = size ∧
      trcContents (rkh_trc_put b (applyTrcOps (rkh_trc_init size) ops)) =
        (trcContents (applyTrcOps (rkh_trc_init size) ops)).tail ++ [b]) := by
  have hinv : TrcInv (applyTrcOps (rkh_trc_init size) ops) :=
    TrcInv_applyOps ops _ (TrcInv_init size hsz)
  have hsize : (applyTrcOps (rkh_trc_init size) ops).size = size := by
    rw [applyTrcOps_size]
    unfold rkh_trc_init
    rw [rkh_trc_put_size]
  refine ⟨?_, rkh_trc_get_none_iff _, fun hq => rkh_trc_get_spec _ hinv hq, ?_⟩
  · exact le_of_le_of_eq hinv.2.2.2.2.1 hsize
  · intro hfull
    have hfull2 : (applyTrcOps (rkh_trc_init size) ops).qty =
        (applyTrcOps (rkh_trc_init size) ops).size := by rw [hsize, hfull]
    have h := trcContents_put_full b _ hinv hfull2
    exact ⟨by rw [h.2, hsize], h.1⟩

/-- C9: for every byte `d`, `rkh_trc_u8` appends the two bytes `RKH_ESC`
followed by `d ^ 0x20` when `d` is the flag byte `0x7E` or the escape byte
`0x7D`, appends the single byte `d` otherwise, and in every case adds the
original unescaped `d` to the running checksum modulo 256. -/
theorem trc_u8_C9 (s : TrcStream) (d : Nat) (h : TrcInv s)
    (hroom : s.qty + 2 ≤ s.size) :
    (rkh_trc_u8 d s).chk = (s.chk + d) % 256 ∧
    trcContents (rkh_trc_u8 d s) =
      trcContents s ++
        (if d = RKH_FLG ∨ d = RKH_ESC then [RKH_ESC, d ^^^ RKH_XOR]
         else [d]) := by
  have hinv1 : TrcInv ({ s with chk := (s.chk + d) % 256 } : TrcStream) := h
  by_cases hd : d = RKH_FLG ∨ d = RKH_ESC
  · have h1 := trcContents_put_append RKH_ESC
      { s with chk := (s.chk + d) % 256 } hinv1 (show s.qty < s.size by omega)
    have hinv2 := TrcInv_put RKH_ESC { s with chk := (s.chk + d) % 256 } hinv1
    have hq2 := (rkh_trc_put_fields RKH_ESC
      { s with chk := (s.chk + d) % 256 } hinv1
      (show s.qty < s.size by omega)).2.2.2.1
    have hsz2 := rkh_trc_put_size RKH_ESC
      ({ s with chk := (s.chk + d) % 256 } : TrcStream)
    have h2 := trcContents_put_append (d ^^^ RKH_XOR)
      (rkh_trc_put RKH_ESC { s with chk := (s.chk + d) % 256 }) hinv2
      (by rw [hq2, hsz2]; show s.qty + 1 < s.size; omega)
    constructor
    · simp only [rkh_trc_u8]
      rw [if_pos hd, rkh_trc_put_chk, rkh_trc_put_chk]
    · simp only [rkh_trc_u8]
      rw [if_pos hd, if_pos hd, h2, h1]
      have hc1 : trcContents ({ s with chk := (s.chk + d) % 256 } : TrcStream) =
          trcContents s := rfl
      rw [hc1, List.append_assoc]
      rfl
  · have h1 := trcContents_put_append d
      { s with chk := (s.chk + d) % 256 } hinv1 (show s.qty < s.size by omega)
    constructor
    · simp only [rkh_trc_u8]
      rw [if_neg hd, rkh_trc_put_chk]
    · simp only [rkh_trc_u8]
      rw [if_neg hd, if_neg hd, h1]
      rfl

/-- C8 witness: a two-byte stream; after `init` and one `put` the stream
is full, `get` returns the oldest byte, and a further `put` discards the
oldest byte. -/
theorem trc_stream_C8_witness :
    (applyTrcOps (rkh_trc_init 2) [TrcOp.put 5]).qty ≤ 2 ∧
    (rkh_trc_get (applyTrcOps (rkh_trc_init 2) [TrcOp.put 5])).1 =
      (trcContents (applyTrcOps (rkh_trc_init 2) [TrcOp.put 5])).head? ∧
    trcContents (rkh_trc_put 7 (applyTrcOps (rkh_trc_init 2) [TrcOp.put 5])) =
      (trcContents (applyTrcOps (rkh_trc_init 2) [TrcOp.put 5])).tail ++ [7] := by
  have h := trc_stream_C8 2 (by decide) [TrcOp.put 5] 7
  exact ⟨h.1, (h.2.2.1 (by decide)).1, (h.2.2.2 (by decide)).2⟩

/-- C9 witness: inserting the escape byte `0x7D` into a freshly
initialised 4-byte stream appends the stuffed pair and updates the
checksum. -/
theorem trc_u8_C9_witness :
    (rkh_trc_u8 0x7D (rkh_trc_init 4)).chk =
      ((rkh_trc_init 4).chk + 0x7D) % 256 ∧
    trcContents (rkh_trc_u8 0x7D (rkh_trc_init 4)) =
      trcContents (rkh_trc_init 4) ++
        (if (0x7D : Nat) = RKH_FLG ∨ (0x7D : Nat) = RKH_ESC
         then [RKH_ESC, 0x7D ^^^ RKH_XOR] else [0x7D]) := by
  exact trc_u8_C9 (rkh_trc_init 4) 0x7D (TrcInv_init 4 (by decide)) (by decide)

/-! ### HSM lemmas and claim C7 -/

theorem hsmDescend_basic (m : HsmMachine) :
    ∀ (fuel s r : Nat), hsmDescend m fuel s = .ok r →
      hsmIsBasic m r = true := by
  intro fuel
  induction fuel with
  | zero =>
    intro s r h
    simp [hsmDescend] at h
  | succ fuel ih =>
    intro s r h
    unfold hsmDescend at h
    cases hdesc : m.desc s with
    | none =>
      rw [hdesc] at h
      simp at h
    | some d =>
      rw [hdesc] at h
      simp only at h
      cases hk : d.kind with
      | basic =>
        rw [hk] at h
        simp at h
        subst h
        simp [hsmIsBasic, hdesc, hk]
      | final =>
        rw [hk] at h
        simp at h
        subst h
        simp [hsmIsBasic, hdesc, hk]
      | composite sub =>
        rw [hk] at h
        exact ih sub r h
      | choice brs dflt =>
        rw [hk] at h
        simp at h
      | junction tgt =>
        rw [hk] at h
        simp at h
      | shallowHistory =>
        rw [hk] at h
        simp at h
      | deepHistory =>
        rw [hk] at h
        simp at h

theorem hsmDispatch_current (m : HsmMachine) (ao : HsmAO) (sig : Nat) :
    (hsmDispatch m ao sig).2.current = ao.current ∨
    ∃ t fuel, hsmDescend m fuel t = .ok (hsmDispatch m ao sig).2.current := by
  simp only [hsmDispatch]
  split
  · exact Or.inl rfl
  · exact Or.inl rfl
  · split
    · exact Or.inl rfl
    · split
      · exact Or.inl rfl
      · split
        · exact Or.inl rfl
        · split
          · exact Or.inl rfl
          · next heq => exact Or.inr ⟨_, _, heq⟩

theorem hsmDispatch_basic (m : HsmMachine) (ao : HsmAO) (sig : Nat)
    (h : hsmIsBasic m ao.current = true) :
    hsmIsBasic m (hsmDispatch m ao sig).2.current = true := by
  rcases hsmDispatch_current m ao sig with hc | ⟨t, fuel, hd⟩
  · rw [hc]
    exact h
  · exact hsmDescend_basic m fuel t _ hd

theorem hsmRun_basic (m : HsmMachine) (sigs : List Nat) :
    ∀ (ao : HsmAO), hsmIsBasic m ao.current = true →
      hsmIsBasic m (hsmRun m ao sigs).current = true := by
  induction sigs with
  | nil => intro ao h; exact h
  | cons sig rest ih =>
    intro ao h
    exact ih _ (hsmDispatch_basic m ao sig h)

/-- C7: for every machine and every AO whose initialization succeeded, the
AO's current-state pointer designates a basic (non-pseudo, non-composite)
state after initialization and after every run-to-completion step of
every event sequence. -/
theorem hsm_basic_invariant_C7 (m : HsmMachine) (ao₀ : HsmAO)
    (hinit : hsmInit m = .ok ao₀) (sigs : List Nat) :
    hsmIsBasic m ao₀.current = true ∧
    hsmIsBasic m (hsmRun m ao₀ sigs).current = true := by
  have h0 : hsmIsBasic m ao₀.current = true := by
    unfold hsmInit at hinit
    cases hd : hsmDescend m (m.maxDepth + 1) m.initialTarget with
    | error o =>
      rw [hd] at hinit
      simp [Except.map] at hinit
    | ok s =>
      rw [hd] at hinit
      simp [Except.map] at hinit
      rw [← hinit]
      exact hsmDescend_basic m _ _ _ hd
  exact ⟨h0, hsmRun_basic m sigs ao₀ h0⟩

/-- C7 witness: on the concrete machine, initialization descends to the
basic state 1, and after dispatching signal 1 (which transitions to state
2) and the unhandled signal 9, the current state is still basic. -/
theorem hsm_basic_invariant_C7_witness :
    hsmInit demoMachine = .ok ⟨1, []⟩ ∧
    hsmIsBasic demoMachine
      (hsmRun demoMachine ⟨1, []⟩ [1, 9]).current = true := by
  refine ⟨rfl, (hsm_basic_invariant_C7 demoMachine ⟨1, []⟩ rfl [1, 9]).2⟩

/-- C10 witness: at priority 8 = `RKH_MAX_SMA` the check passes regardless
of the table; at priority 0 (bit 0 of byte 0 set) the result follows the
bit. -/
theorem trc_smaFilter_C10_witness :
    rkh_trc_sma_isoff_ 8 [0x01] 8 = true ∧
    (rkh_trc_sma_isoff_ 8 [0x01] 0 = true ↔
      (([0x01] : List Nat).getD (0 >>> 3) 0).testBit (0 &&& 0x07) = false) := by
  exact ⟨(trc_smaFilter_C10 8 [0x01] 8).1 rfl,
    (trc_smaFilter_C10 8 [0x01] 0).2 (by decide)⟩

end RKH
